import Mathlib

/-!
Verification of the EchoTorch incremental conceptor memory-management core.

The repository ships two source files: the memory-management test driver
(`test/test_memory_management.py`) and the random matrix generator
(`echotorch/utils/matrix_generation/NormalMatrixGenerator.py`).  The
conceptor / conceptor-set / incremental-loader implementations themselves are
not part of the source tree, so they are modelled here from the specification
(`spec.md`), faithful to its formulas; every such definition carries a doc
comment starting with `Modelled from the spec:`.  The matrix generator is
embedded directly from its Python source.

Matrices are taken over `ℚ` so that every definition is executable and
concrete instances can be evaluated by `decide`.  Matrix inversion is the
explicit adjugate-based inverse, which agrees with the true inverse whenever
the determinant is nonzero.
-/

namespace EchoTorch

open Matrix

/-- Square rational matrix of size `n`, the state space of an `n`-neuron
reservoir. -/
abbrev Mat (n : ℕ) := Matrix (Fin n) (Fin n) ℚ

variable {n : ℕ}

/-- Executable matrix inverse over `ℚ` via the adjugate; coincides with the
true inverse whenever `A.det ≠ 0`. -/
def minv (A : Mat n) : Mat n := A.det⁻¹ • A.adjugate

/-- Quadratic form `x ⬝ A x` of a square matrix. -/
def qf (A : Mat n) (x : Fin n → ℚ) : ℚ := x ⬝ᵥ (A *ᵥ x)

/-- Symmetric positive-semidefinite predicate, the shallow embedding of the
spec's "symmetric positive-semidefinite correlation matrix". -/
def symmPSD (A : Mat n) : Prop := Aᵀ = A ∧ ∀ x : Fin n → ℚ, 0 ≤ qf A x

theorem dotProduct_self_nonneg (x : Fin n → ℚ) : 0 ≤ x ⬝ᵥ x :=
  Finset.sum_nonneg fun i _ => mul_self_nonneg (x i)

theorem dotProduct_self_pos {x : Fin n → ℚ} (hx : x ≠ 0) : 0 < x ⬝ᵥ x := by
  rcases Function.ne_iff.mp hx with ⟨i, hi⟩
  have h0 : (0 : ℚ) < x i * x i := by
    have := mul_self_nonneg (x i)
    rcases lt_or_eq_of_le this with h | h
    · exact h
    · exact absurd (by nlinarith : x i = 0) hi
  refine Finset.sum_pos' (fun j _ => mul_self_nonneg (x j)) ⟨i, Finset.mem_univ i, h0⟩

theorem symmPSD_zero : symmPSD (0 : Mat n) :=
  ⟨transpose_zero, fun x => by simp [qf]⟩

theorem symmPSD_one : symmPSD (1 : Mat n) :=
  ⟨transpose_one, fun x => by simpa [qf] using dotProduct_self_nonneg x⟩

theorem symmPSD_add {A B : Mat n} (hA : symmPSD A) (hB : symmPSD B) :
    symmPSD (A + B) := by
  refine ⟨by rw [transpose_add, hA.1, hB.1], fun x => ?_⟩
  have := add_nonneg (hA.2 x) (hB.2 x)
  simpa [qf, add_mulVec, dotProduct_add] using this

theorem symmPSD_smul {A : Mat n} (hA : symmPSD A) {c : ℚ} (hc : 0 ≤ c) :
    symmPSD (c • A) := by
  refine ⟨by rw [transpose_smul, hA.1], fun x => ?_⟩
  have := mul_nonneg hc (hA.2 x)
  simpa [qf, smul_mulVec_assoc, dotProduct_smul, smul_eq_mul] using this

/-- The quadratic form of a PSD-plus-positive-scalar matrix is bounded below
by the scalar times the squared norm. -/
theorem qf_add_smul_one (P : Mat n) (c : ℚ) (x : Fin n → ℚ) :
    qf (P + c • 1) x = qf P x + c * (x ⬝ᵥ x) := by
  simp [qf, add_mulVec, dotProduct_add, smul_mulVec_assoc, one_mulVec,
    dotProduct_smul, smul_eq_mul]

theorem posdef_add_smul_one {P : Mat n} (hP : symmPSD P) {c : ℚ} (hc : 0 < c)
    {x : Fin n → ℚ} (hx : x ≠ 0) : 0 < qf (P + c • 1) x := by
  rw [qf_add_smul_one]
  have h1 := hP.2 x
  have h2 := mul_pos hc (dotProduct_self_pos hx)
  linarith

theorem det_ne_zero_of_psd_add {P : Mat n} (hP : symmPSD P) {c : ℚ}
    (hc : 0 < c) : (P + c • 1).det ≠ 0 := by
  intro hdet
  obtain ⟨v, hv, hmv⟩ := (Matrix.exists_mulVec_eq_zero_iff).mpr hdet
  have : qf (P + c • 1) v = 0 := by simp [qf, hmv]
  exact absurd this (ne_of_gt (posdef_add_smul_one hP hc hv))

theorem minv_mul {A : Mat n} (h : A.det ≠ 0) : minv A * A = 1 := by
  rw [minv, smul_mul_assoc, Matrix.adjugate_mul, smul_smul,
    inv_mul_cancel₀ h, one_smul]

theorem mul_minv {A : Mat n} (h : A.det ≠ 0) : A * minv A = 1 := by
  rw [minv, mul_smul_comm, Matrix.mul_adjugate, smul_smul,
    inv_mul_cancel₀ h, one_smul]

theorem det_ne_zero_of_left_inv {A B : Mat n} (h : B * A = 1) : A.det ≠ 0 := by
  intro h0
  have := congrArg Matrix.det h
  rw [Matrix.det_mul, h0, mul_zero, Matrix.det_one] at this
  exact zero_ne_one this

theorem minv_eq_of {A B : Mat n} (h1 : A * B = 1) (h2 : B * A = 1) :
    minv A = B := by
  have hd : A.det ≠ 0 := det_ne_zero_of_left_inv h2
  calc minv A = minv A * (A * B) := by rw [h1, mul_one]
    _ = (minv A * A) * B := by rw [mul_assoc]
    _ = B := by rw [minv_mul hd, one_mul]

theorem minv_det_ne_zero {A : Mat n} (h : A.det ≠ 0) : (minv A).det ≠ 0 :=
  det_ne_zero_of_left_inv (mul_minv h)

theorem minv_minv {A : Mat n} (h : A.det ≠ 0) : minv (minv A) = A :=
  minv_eq_of (minv_mul h) (mul_minv h)

theorem minv_mul_minv {A B : Mat n} (hA : A.det ≠ 0) (hB : B.det ≠ 0) :
    minv (A * B) = minv B * minv A := by
  refine minv_eq_of ?_ ?_
  · rw [mul_assoc, ← mul_assoc B, mul_minv hB, one_mul, mul_minv hA]
  · rw [mul_assoc, ← mul_assoc (minv A), minv_mul hA, one_mul, minv_mul hB]

theorem minv_one : minv (1 : Mat n) = 1 := minv_eq_of (one_mul 1) (one_mul 1)

theorem minv_smul {A : Mat n} (h : A.det ≠ 0) {c : ℚ} (hc : c ≠ 0) :
    minv (c • A) = c⁻¹ • minv A := by
  refine minv_eq_of ?_ ?_
  · rw [smul_mul_smul_comm, mul_inv_cancel₀ hc, mul_minv h, one_smul]
  · rw [smul_mul_smul_comm, inv_mul_cancel₀ hc, minv_mul h, one_smul]

theorem minv_transpose {A : Mat n} : minv Aᵀ = (minv A)ᵀ := by
  rw [minv, minv, Matrix.transpose_smul, Matrix.adjugate_transpose,
    Matrix.det_transpose]

theorem minv_symm {A : Mat n} (hA : Aᵀ = A) : (minv A)ᵀ = minv A := by
  rw [← minv_transpose, hA]

theorem mul_minv_comm {A B : Mat n} (hcomm : A * B = B * A)
    (hB : B.det ≠ 0) : A * minv B = minv B * A := by
  calc A * minv B = (minv B * B) * (A * minv B) := by rw [minv_mul hB, one_mul]
    _ = minv B * ((B * A) * minv B) := by rw [mul_assoc, ← mul_assoc B]
    _ = minv B * (A * (B * minv B)) := by rw [← hcomm, mul_assoc]
    _ = minv B * A := by rw [mul_minv hB, mul_one]

theorem dot_mulVec_symm {A : Mat n} (hA : Aᵀ = A) (u v : Fin n → ℚ) :
    u ⬝ᵥ (A *ᵥ v) = (A *ᵥ u) ⬝ᵥ v := by
  rw [Matrix.dotProduct_mulVec, ← Matrix.mulVec_transpose, hA]

theorem qf_add (A B : Mat n) (x : Fin n → ℚ) :
    qf (A + B) x = qf A x + qf B x := by
  simp [qf, add_mulVec, dotProduct_add]

theorem mulVec_minv_cancel {A : Mat n} (h : A.det ≠ 0) (x : Fin n → ℚ) :
    A *ᵥ (minv A *ᵥ x) = x := by
  rw [Matrix.mulVec_mulVec, mul_minv h, Matrix.one_mulVec]

theorem symm_add_smul_one {P : Mat n} (hP : Pᵀ = P) (c : ℚ) :
    (P + c • 1)ᵀ = P + c • 1 := by
  rw [transpose_add, hP, transpose_smul, transpose_one]

/-- Variational bound: for symmetric invertible PSD `A` and any `w`,
`2⟨x,w⟩ − ⟨w,Aw⟩ ≤ ⟨x, A⁻¹x⟩`. -/
theorem key_ineq {A : Mat n} (hAs : Aᵀ = A) (hd : A.det ≠ 0)
    (hpsd : ∀ z, 0 ≤ qf A z) (x w : Fin n → ℚ) :
    2 * (x ⬝ᵥ w) - qf A w ≤ qf (minv A) x := by
  have hz := hpsd (w - minv A *ᵥ x)
  have h1 : A *ᵥ (minv A *ᵥ x) = x := mulVec_minv_cancel hd x
  have hexp : qf A (w - minv A *ᵥ x)
      = qf A w - 2 * (x ⬝ᵥ w) + qf (minv A) x := by
    simp only [qf, Matrix.mulVec_sub, Matrix.sub_dotProduct,
      Matrix.dotProduct_sub, h1]
    rw [dot_mulVec_symm hAs (minv A *ᵥ x) w, h1,
      Matrix.dotProduct_comm w x, Matrix.dotProduct_comm (minv A *ᵥ x) x]
    ring
  rw [hexp] at hz
  linarith

/-- The inverse of a PD matrix has nonnegative quadratic form. -/
theorem qf_minv_nonneg {P : Mat n} (hP : symmPSD P) {c : ℚ} (hc : 0 < c)
    (x : Fin n → ℚ) : 0 ≤ qf (minv (P + c • 1)) x := by
  have hd := det_ne_zero_of_psd_add hP hc
  have h1 : (P + c • 1) *ᵥ (minv (P + c • 1) *ᵥ x) = x :=
    mulVec_minv_cancel hd x
  have h2 : qf (minv (P + c • 1)) x
      = qf (P + c • 1) (minv (P + c • 1) *ᵥ x) := by
    rw [qf, qf, h1, Matrix.dotProduct_comm]
  rw [h2, qf_add_smul_one]
  have := hP.2 (minv (P + c • 1) *ᵥ x)
  have := mul_nonneg hc.le
    (dotProduct_self_nonneg (minv (P + c • 1) *ᵥ x))
  linarith

/-- The inverse of a PD matrix has positive quadratic form away from zero. -/
theorem qf_minv_pos {P : Mat n} (hP : symmPSD P) {c : ℚ} (hc : 0 < c)
    {x : Fin n → ℚ} (hx : x ≠ 0) : 0 < qf (minv (P + c • 1)) x := by
  have hd := det_ne_zero_of_psd_add hP hc
  have h1 : (P + c • 1) *ᵥ (minv (P + c • 1) *ᵥ x) = x :=
    mulVec_minv_cancel hd x
  have hw : minv (P + c • 1) *ᵥ x ≠ 0 := by
    intro h0
    rw [h0, Matrix.mulVec_zero] at h1
    exact hx h1.symm
  have h2 : qf (minv (P + c • 1)) x
      = qf (P + c • 1) (minv (P + c • 1) *ᵥ x) := by
    rw [qf, qf, h1, Matrix.dotProduct_comm]
  rw [h2]
  exact posdef_add_smul_one hP hc hw

/-- Antitonicity of the inverse in the quadratic-form order: enlarging a PD
matrix by a PSD term shrinks the quadratic form of the inverse. -/
theorem qf_minv_antitone {P Q : Mat n} (hP : symmPSD P) (hQ : symmPSD Q)
    {c : ℚ} (hc : 0 < c) (x : Fin n → ℚ) :
    qf (minv (P + Q + c • 1)) x ≤ qf (minv (P + c • 1)) x := by
  have hPQ : symmPSD (P + Q) := symmPSD_add hP hQ
  have hdA : (P + c • 1).det ≠ 0 := det_ne_zero_of_psd_add hP hc
  have hdB : (P + Q + c • 1).det ≠ 0 := det_ne_zero_of_psd_add hPQ hc
  have hAs : (P + c • 1)ᵀ = P + c • 1 := symm_add_smul_one hP.1 c
  have hpsdA : ∀ z, 0 ≤ qf (P + c • 1) z := by
    intro z
    rw [qf_add_smul_one]
    have := hP.2 z
    have := mul_nonneg hc.le (dotProduct_self_nonneg z)
    linarith
  set w := minv (P + Q + c • 1) *ᵥ x with hw
  have hBw : (P + Q + c • 1) *ᵥ w = x := mulVec_minv_cancel hdB x
  have h1 : qf (minv (P + Q + c • 1)) x = x ⬝ᵥ w := rfl
  have h2 : qf (P + Q + c • 1) w = x ⬝ᵥ w := by
    rw [qf, hBw, Matrix.dotProduct_comm]
  have hsplit : P + Q + c • 1 = (P + c • 1) + Q := by
    rw [add_right_comm]
  have h3 : qf (P + Q + c • 1) w = qf (P + c • 1) w + qf Q w := by
    rw [hsplit, qf_add]
  have hkey := key_ineq hAs hdA hpsdA x w
  have hQw := hQ.2 w
  rw [h1]
  linarith

theorem qf_single (M : Mat n) (i : Fin n) : qf M (Pi.single i 1) = M i i := by
  simp [qf, Matrix.mulVec_single, Matrix.single_dotProduct]

theorem trace_eq_sum_qf (M : Mat n) :
    M.trace = ∑ i, qf M (Pi.single i 1) := by
  simp [Matrix.trace, Matrix.diag, qf_single]

theorem trace_mono_of_qf {A B : Mat n}
    (h : ∀ x, qf A x ≤ qf B x) : A.trace ≤ B.trace := by
  rw [trace_eq_sum_qf, trace_eq_sum_qf]
  exact Finset.sum_le_sum fun i _ => h (Pi.single i 1)

theorem trace_nonneg_of_qf {A : Mat n}
    (h : ∀ x, 0 ≤ qf A x) : 0 ≤ A.trace := by
  rw [trace_eq_sum_qf]
  exact Finset.sum_nonneg fun i _ => h (Pi.single i 1)

/-- Modelled from the spec: `Conceptor.finalize` (§3, §4.1).  The Conceptor
implementation is not in the source tree; per the spec, finalizing with
correlation matrix `R` and aperture `a` computes the projector
`C = R · (R + a⁻² · I)⁻¹`. -/
def finalize (R : Mat n) (aperture : ℚ) : Mat n :=
  R * minv (R + (aperture⁻¹) ^ 2 • 1)

/-- Modelled from the spec: `Conceptor.set_aperture` (§3, §4.1).  The
Conceptor implementation is not in the source tree; per the spec, an aperture
change is a closed-form morph `C ↦ C · (C + γ⁻²(I − C))⁻¹` of the stored
projector (the "`C·(C + phi⁻²(I−C))⁻¹` family") with the morph ratio
`γ = phi / aperture`, chosen so that §4.1's required determinism property
(finalize-then-rescale equals refitting at the new aperture) holds. -/
def set_aperture (C : Mat n) (aperture phi : ℚ) : Mat n :=
  C * minv (C + (aperture / phi) ^ 2 • (1 - C))

theorem apow_pos {a : ℚ} (ha : 0 < a) : 0 < (a⁻¹) ^ 2 :=
  pow_pos (inv_pos.mpr ha) 2

theorem det_finalize_arg_ne_zero {R : Mat n} (hR : symmPSD R) {a : ℚ}
    (ha : 0 < a) : (R + (a⁻¹) ^ 2 • 1).det ≠ 0 :=
  det_ne_zero_of_psd_add hR (apow_pos ha)

theorem one_sub_finalize {R : Mat n} (hR : symmPSD R) {a : ℚ} (ha : 0 < a) :
    1 - finalize R a = (a⁻¹) ^ 2 • minv (R + (a⁻¹) ^ 2 • 1) := by
  have hd := det_finalize_arg_ne_zero hR ha
  have h := mul_minv hd
  rw [add_mul, smul_mul_assoc, one_mul] at h
  rw [finalize]
  nth_rewrite 1 [← h]
  abel

theorem finalize_eq_one_sub {R : Mat n} (hR : symmPSD R) {a : ℚ}
    (ha : 0 < a) :
    finalize R a = 1 - (a⁻¹) ^ 2 • minv (R + (a⁻¹) ^ 2 • 1) := by
  have h := one_sub_finalize hR ha
  rw [← h]
  abel

/-- Shared core of claims C3 and C7: refitting through the aperture morph
agrees exactly with finalizing at the new aperture. -/
theorem set_aperture_finalize {R : Mat n} (hR : symmPSD R) {a phi : ℚ}
    (ha : 0 < a) (hphi : 0 < phi) :
    set_aperture (finalize R a) a phi = finalize R phi := by
  have hdB := det_finalize_arg_ne_zero hR ha
  have hdB' := det_finalize_arg_ne_zero hR hphi
  have hsub : 1 - finalize R a = (a⁻¹) ^ 2 • minv (R + (a⁻¹) ^ 2 • 1) :=
    one_sub_finalize hR ha
  have hratio : (a / phi) ^ 2 * (a⁻¹) ^ 2 = (phi⁻¹) ^ 2 := by
    field_simp
    ring
  have harg : finalize R a + (a / phi) ^ 2 • (1 - finalize R a)
      = (R + (phi⁻¹) ^ 2 • 1) * minv (R + (a⁻¹) ^ 2 • 1) := by
    rw [hsub, smul_smul, hratio, finalize, add_mul, smul_mul_assoc, one_mul]
  have hinner : minv (finalize R a + (a / phi) ^ 2 • (1 - finalize R a))
      = (R + (a⁻¹) ^ 2 • 1) * minv (R + (phi⁻¹) ^ 2 • 1) := by
    rw [harg, minv_mul_minv hdB' (minv_det_ne_zero hdB), minv_minv hdB]
  rw [set_aperture, hinner, finalize, finalize, mul_assoc,
    ← mul_assoc (minv (R + (a⁻¹) ^ 2 • 1)), minv_mul hdB, one_mul]

/-- Shallow embedding of "symmetric projector with all eigenvalues in
`[0,1)`": the quadratic form is nonnegative and strictly below the squared
norm away from zero. -/
def validConceptor (C : Mat n) : Prop :=
  Cᵀ = C ∧ (∀ x, 0 ≤ qf C x) ∧ ∀ x, x ≠ 0 → qf C x < x ⬝ᵥ x

theorem qf_one_sub_smul (M : Mat n) (e : ℚ) (x : Fin n → ℚ) :
    qf (1 - e • M) x = x ⬝ᵥ x - e * qf M x := by
  simp [qf, sub_mulVec, dotProduct_sub, smul_mulVec_assoc, one_mulVec,
    dotProduct_smul, smul_eq_mul]

theorem qf_minv_le_self {R : Mat n} (hR : symmPSD R) {e : ℚ} (he : 0 < e)
    (x : Fin n → ℚ) :
    qf (minv (R + e • 1)) x ≤ e⁻¹ * (x ⬝ᵥ x) := by
  have h := qf_minv_antitone symmPSD_zero hR he x
  rw [zero_add, zero_add] at h
  have hmv : minv (e • (1 : Mat n)) = e⁻¹ • (1 : Mat n) := by
    have h1 : ((1 : Mat n)).det ≠ 0 := by
      rw [Matrix.det_one]; exact one_ne_zero
    rw [minv_smul h1 (ne_of_gt he), minv_one]
  have hq : qf (minv (e • (1 : Mat n))) x = e⁻¹ * (x ⬝ᵥ x) := by
    rw [hmv]
    simp [qf, smul_mulVec_assoc, one_mulVec, dotProduct_smul, smul_eq_mul]
  rw [hq] at h
  exact h

/-- Shared core of claim C7: every finalized conceptor is a symmetric
soft projector with eigenvalues in `[0,1)`. -/
theorem validConceptor_finalize {R : Mat n} (hR : symmPSD R) {a : ℚ}
    (ha : 0 < a) : validConceptor (finalize R a) := by
  have he := apow_pos ha
  have hd := det_finalize_arg_ne_zero hR ha
  have heq := finalize_eq_one_sub hR ha
  refine ⟨?_, ?_, ?_⟩
  · rw [heq, transpose_sub, transpose_one, transpose_smul,
      minv_symm (symm_add_smul_one hR.1 _)]
  · intro x
    rw [heq, qf_one_sub_smul]
    have h1 := qf_minv_le_self hR he x
    have h2 : (a⁻¹) ^ 2 * qf (minv (R + (a⁻¹) ^ 2 • 1)) x
        ≤ (a⁻¹) ^ 2 * (((a⁻¹) ^ 2)⁻¹ * (x ⬝ᵥ x)) :=
      mul_le_mul_of_nonneg_left h1 he.le
    rw [← mul_assoc, mul_inv_cancel₀ (ne_of_gt he), one_mul] at h2
    linarith
  · intro x hx
    rw [heq, qf_one_sub_smul]
    have h1 := qf_minv_pos hR he hx
    have h2 := mul_pos he h1
    linarith

/-- Modelled from the spec: the correlation-space representative
`R = C(I − C)⁻¹` of a conceptor, used by the textbook conceptor-logic
disjunction via inverse-space addition (§3, §4.2, §9). -/
def rOf (C : Mat n) : Mat n := C * minv (1 - C)

/-- Modelled from the spec: the conceptor disjunction ("OR") combinator used
by `ConceptorSet.aggregate_update` (§3, §4.2).  The ConceptorSet
implementation is not in the source tree; per §9 the textbook conceptor-logic
disjunction is the default: map both conceptors to correlation space, add,
and map back with unit aperture. -/
def orOp (X Y : Mat n) : Mat n :=
  (rOf X + rOf Y) * minv (rOf X + rOf Y + 1)

theorem finalize_one (S : Mat n) : finalize S 1 = S * minv (S + 1) := by
  rw [finalize]
  norm_num

theorem det_succ_ne {S : Mat n} (hS : symmPSD S) : (S + 1).det ≠ 0 := by
  have h := det_ne_zero_of_psd_add hS one_pos
  rwa [one_smul] at h

theorem one_sub_finalize_one {S : Mat n} (hS : symmPSD S) :
    1 - finalize S 1 = minv (S + 1) := by
  have h := one_sub_finalize hS one_pos
  rwa [inv_one, one_pow, one_smul, one_smul] at h

theorem rOf_finalize_one {S : Mat n} (hS : symmPSD S) :
    rOf (finalize S 1) = S := by
  have hd := det_succ_ne hS
  rw [rOf, one_sub_finalize_one hS, minv_minv hd, finalize_one, mul_assoc,
    minv_mul hd, mul_one]

/-- A conceptor finalized at aperture `a` is the unit-aperture conceptor of
the rescaled correlation matrix `a² • R`. -/
theorem finalize_smul {R : Mat n} (hR : symmPSD R) {a : ℚ} (ha : 0 < a) :
    finalize R a = finalize (a ^ 2 • R) 1 := by
  have hd := det_finalize_arg_ne_zero hR ha
  have ha2 : (a : ℚ) ^ 2 ≠ 0 := pow_ne_zero 2 (ne_of_gt ha)
  have harg : a ^ 2 • R + 1 = a ^ 2 • (R + (a⁻¹) ^ 2 • 1) := by
    rw [smul_add, smul_smul]
    congr 1
    rw [← mul_pow, mul_inv_cancel₀ (ne_of_gt ha), one_pow, one_smul]
  rw [finalize_one, harg, minv_smul hd ha2, finalize, smul_mul_assoc,
    mul_smul_comm, smul_smul, mul_inv_cancel₀ ha2, one_smul]

/-- The textbook disjunction of two finalized conceptors is the conceptor of
the summed correlation matrices. -/
theorem orOp_finalize_one {S Q : Mat n} (hS : symmPSD S) (hQ : symmPSD Q) :
    orOp (finalize S 1) (finalize Q 1) = finalize (S + Q) 1 := by
  rw [orOp, rOf_finalize_one hS, rOf_finalize_one hQ, finalize_one]

theorem finalize_zero_one : finalize (0 : Mat n) 1 = 0 := by
  rw [finalize_one, zero_mul]

/-- Modelled from the spec: the running aggregate `A` of a `ConceptorSet`
(§3, §4.2), the fold of the disjunction combinator over the conceptors of the
patterns loaded so far, starting from the zero conceptor (nothing loaded). -/
def aggregateA (Cs : List (Mat n)) : Mat n := Cs.foldl orOp 0

/-- A loading history: the correlation matrix and aperture of each loaded
pattern, in load order. -/
abbrev History (n : ℕ) := List (Mat n × ℚ)

/-- A well-formed loaded pattern: symmetric PSD correlation matrix and
positive aperture. -/
def goodPat (p : Mat n × ℚ) : Prop := symmPSD p.1 ∧ 0 < p.2

/-- Modelled from the spec: the aggregate `A` after loading the patterns of a
history (each conceptor finalized from its pattern's correlation matrix and
aperture, then aggregated disjunctively in load order). -/
def Aof (ps : History n) : Mat n :=
  aggregateA (ps.map fun p => finalize p.1 p.2)

/-- Modelled from the spec: `ConceptorSet.quota()` = `trace(A) / reservoir
size` (§3, §4.2). -/
def quota (ps : History n) : ℚ := (Aof ps).trace / n

/-- The aperture-weighted sum of correlation matrices of a history. -/
def psum (ps : History n) : Mat n := (ps.map fun p => p.2 ^ 2 • p.1).sum

theorem psum_nil : psum ([] : History n) = 0 := rfl

theorem psum_cons (p : Mat n × ℚ) (ps : History n) :
    psum (p :: ps) = p.2 ^ 2 • p.1 + psum ps := by
  simp [psum]

theorem psum_psd {ps : History n} (h : ∀ p ∈ ps, goodPat p) :
    symmPSD (psum ps) := by
  induction ps with
  | nil => simpa [psum_nil] using symmPSD_zero
  | cons p ps ih =>
    rw [psum_cons]
    refine symmPSD_add (symmPSD_smul (h p (List.mem_cons_self p ps)).1
      (sq_nonneg p.2)) (ih fun q hq => h q (List.mem_cons_of_mem p hq))

theorem foldl_orOp_eq {S : Mat n} (hS : symmPSD S) :
    ∀ ps : History n, (∀ p ∈ ps, goodPat p) →
      (ps.map fun p => finalize p.1 p.2).foldl orOp (finalize S 1)
        = finalize (S + psum ps) 1 := by
  intro ps
  induction ps generalizing S with
  | nil => intro _; simp [psum_nil]
  | cons p ps ih =>
    intro h
    have hp := h p (List.mem_cons_self p ps)
    have hscaled : symmPSD (p.2 ^ 2 • p.1) :=
      symmPSD_smul hp.1 (sq_nonneg p.2)
    have hstep : orOp (finalize S 1) (finalize p.1 p.2)
        = finalize (S + p.2 ^ 2 • p.1) 1 := by
      rw [finalize_smul hp.1 hp.2, orOp_finalize_one hS hscaled]
    rw [List.map_cons, List.foldl_cons, hstep,
      ih (symmPSD_add hS hscaled) (fun q hq => h q (List.mem_cons_of_mem p hq)),
      psum_cons, add_assoc]

/-- The aggregate of a well-formed history is the unit-aperture conceptor of
the aperture-weighted correlation sum. -/
theorem Aof_eq {ps : History n} (h : ∀ p ∈ ps, goodPat p) :
    Aof ps = finalize (psum ps) 1 := by
  have h0 : (0 : Mat n) = finalize 0 1 := finalize_zero_one.symm
  rw [Aof, aggregateA]
  rw [h0, foldl_orOp_eq symmPSD_zero ps h, zero_add]

theorem trace_finalize_one_eq {S : Mat n} (hS : symmPSD S) :
    (finalize S 1).trace = n - (minv (S + 1)).trace := by
  have h : finalize S 1 = 1 - minv (S + 1) := by
    have h1 := one_sub_finalize_one hS
    rw [← h1]
    abel
  rw [h, Matrix.trace_sub, Matrix.trace_one]
  simp

theorem trace_minv_succ_nonneg {S : Mat n} (hS : symmPSD S) :
    0 ≤ (minv (S + 1)).trace := by
  refine trace_nonneg_of_qf fun x => ?_
  have h := qf_minv_nonneg hS one_pos x
  rwa [one_smul] at h

theorem trace_minv_succ_antitone {S Q : Mat n} (hS : symmPSD S)
    (hQ : symmPSD Q) :
    (minv (S + Q + 1)).trace ≤ (minv (S + 1)).trace := by
  refine trace_mono_of_qf fun x => ?_
  have h := qf_minv_antitone hS hQ one_pos x
  rwa [one_smul] at h

theorem trace_finalize_one_mono {S Q : Mat n} (hS : symmPSD S)
    (hQ : symmPSD Q) :
    (finalize S 1).trace ≤ (finalize (S + Q) 1).trace := by
  rw [trace_finalize_one_eq hS, trace_finalize_one_eq (symmPSD_add hS hQ)]
  have := trace_minv_succ_antitone hS hQ
  linarith

theorem trace_finalize_one_nonneg {S : Mat n} (hS : symmPSD S) :
    0 ≤ (finalize S 1).trace := by
  refine trace_nonneg_of_qf fun x => ?_
  exact (validConceptor_finalize hS one_pos).2.1 x

theorem trace_finalize_one_le {S : Mat n} (hS : symmPSD S) :
    (finalize S 1).trace ≤ n := by
  rw [trace_finalize_one_eq hS]
  have := trace_minv_succ_nonneg hS
  linarith

/-- C3: for every aperture `phi > 0` and symmetric positive-semidefinite
correlation matrix `R`, finalizing (at the stored aperture `a > 0`) and then
calling `set_aperture phi` yields exactly the projector obtained by
finalizing directly with aperture `phi` substituted at finalize time (exact
equality over `ℚ`, hence within any floating-point tolerance). -/
theorem C3_set_aperture_equals_refit {n : ℕ} (R : Mat n) (a phi : ℚ)
    (hR : symmPSD R) (ha : 0 < a) (hphi : 0 < phi) :
    set_aperture (finalize R a) a phi = finalize R phi :=
  set_aperture_finalize hR ha hphi

theorem C3_set_aperture_equals_refit_witness :
    symmPSD (0 : Mat 1) ∧
      set_aperture (finalize (0 : Mat 1) 1) 1 2 = finalize (0 : Mat 1) 2 :=
  ⟨symmPSD_zero,
    C3_set_aperture_equals_refit 0 1 2 symmPSD_zero one_pos (by norm_num)⟩

theorem psum_append (xs ys : History n) :
    psum (xs ++ ys) = psum xs + psum ys := by
  simp [psum]

theorem trace_Aof_take_mono {ps : History n} (h : ∀ p ∈ ps, goodPat p)
    (k : ℕ) : (Aof (ps.take k)).trace ≤ (Aof (ps.take (k + 1))).trace := by
  have htake : ∀ p ∈ ps.take k, goodPat p :=
    fun p hp => h p (List.take_subset k ps hp)
  rcases hg : ps[k]? with _ | p
  · rw [List.take_succ, hg, Option.toList_none, List.append_nil]
  · have hmem : p ∈ ps := by
      obtain ⟨hk, rfl⟩ := List.getElem?_eq_some.mp hg
      exact List.getElem_mem hk
    have hp := h p hmem
    have hS := psum_psd htake
    have hQ : symmPSD (psum [p]) := psum_psd (by
      intro q hq
      rcases List.mem_singleton.mp hq with rfl
      exact hp)
    rw [List.take_succ, hg, Option.toList_some,
      Aof_eq htake, Aof_eq (fun q hq => by
        rcases List.mem_append.mp hq with h1 | h1
        · exact htake q h1
        · rcases List.mem_singleton.mp h1 with rfl
          exact hp),
      psum_append]
    exact trace_finalize_one_mono hS hQ

/-- C4: for every well-formed sequence of loaded patterns, the quota is
`trace(A) / n`, is `0` before anything is aggregated, is non-decreasing as
each successive pattern is aggregated, and stays within `[0, 1]`. -/
theorem C4_quota_properties {n : ℕ} (hn : 0 < n) (ps : History n)
    (h : ∀ p ∈ ps, goodPat p) :
    quota ([] : History n) = 0 ∧
      (∀ k : ℕ, quota (ps.take k) ≤ quota (ps.take (k + 1))) ∧
      0 ≤ quota ps ∧ quota ps ≤ 1 ∧
      quota ps = (Aof ps).trace / n := by
  have hnq : (0 : ℚ) < n := by exact_mod_cast hn
  refine ⟨?_, ?_, ?_, ?_, rfl⟩
  · simp [quota, Aof, aggregateA]
  · intro k
    exact div_le_div_of_nonneg_right (trace_Aof_take_mono h k) hnq.le
  · refine div_nonneg ?_ hnq.le
    rw [Aof_eq h]
    exact trace_finalize_one_nonneg (psum_psd h)
  · rw [quota, div_le_one hnq, Aof_eq h]
    exact trace_finalize_one_le (psum_psd h)

theorem C4_quota_properties_witness :
    0 < 1 ∧ (∀ p ∈ ([((1 : Mat 1), (1 : ℚ))] : History 1), goodPat p) ∧
      (0 ≤ quota ([((1 : Mat 1), (1 : ℚ))] : History 1) ∧
        quota ([((1 : Mat 1), (1 : ℚ))] : History 1) ≤ 1) := by
  have hgood : ∀ p ∈ ([((1 : Mat 1), (1 : ℚ))] : History 1), goodPat p := by
    intro p hp
    rcases List.mem_singleton.mp hp with rfl
    exact ⟨symmPSD_one, one_pos⟩
  have h := C4_quota_properties one_pos [((1 : Mat 1), (1 : ℚ))] hgood
  exact ⟨one_pos, hgood, h.2.2.1, h.2.2.2.1⟩

theorem smul_one_mul_smul_one (c d : ℚ) :
    (c • (1 : Mat n)) * (d • 1) = (c * d) • 1 := by
  rw [smul_mul_smul_comm, one_mul]

theorem one_sub_smul_one (c : ℚ) :
    (1 : Mat n) - c • 1 = (1 - c) • 1 := by
  rw [sub_smul, one_smul]

theorem minv_smul_one {c : ℚ} (hc : c ≠ 0) :
    minv (c • (1 : Mat n)) = c⁻¹ • 1 := by
  have h1 : ((1 : Mat n)).det ≠ 0 := by
    rw [Matrix.det_one]; exact one_ne_zero
  rw [minv_smul h1 hc, minv_one]

theorem finalize_one_one : finalize (1 : Mat 1) 1 = (2⁻¹ : ℚ) • 1 := by
  have h2 : ((1 : Mat 1) + 1) = (2 : ℚ) • 1 := by
    rw [two_smul]
  rw [finalize_one, h2, minv_smul_one (by norm_num : (2 : ℚ) ≠ 0), one_mul]

theorem orOp_one_one :
    orOp (finalize (1 : Mat 1) 1) (finalize (1 : Mat 1) 1)
      = ((2 : ℚ) / 3) • 1 := by
  have hr : rOf (finalize (1 : Mat 1) 1) = 1 := by
    rw [finalize_one_one, rOf, one_sub_smul_one,
      minv_smul_one (by norm_num : (1 - 2⁻¹ : ℚ) ≠ 0), smul_one_mul_smul_one]
    norm_num
  rw [orOp, hr]
  have h2 : ((1 : Mat 1) + 1) = (2 : ℚ) • 1 := by rw [two_smul]
  have h3 : ((1 : Mat 1) + 1 + 1) = (3 : ℚ) • 1 := by
    rw [show (3 : ℚ) = 2 + 1 by norm_num, add_smul, two_smul, one_smul]
  rw [h3, h2, minv_smul_one (by norm_num : (3 : ℚ) ≠ 0), smul_one_mul_smul_one]
  norm_num

/-- C5 counterexample: the textbook disjunction combinator is not idempotent.
For the valid conceptor `C = finalize(I, 1)` (a symmetric PSD correlation
matrix with aperture 1, giving `C = ½·I` on a 1-neuron reservoir),
`C ∨ C = ⅔·I ≠ C`, and the occupied volume (trace) strictly increases when
the same conceptor is aggregated twice. -/
theorem C5_or_idempotent_counterexample :
    symmPSD (1 : Mat 1) ∧
      orOp (finalize (1 : Mat 1) 1) (finalize (1 : Mat 1) 1)
        ≠ finalize (1 : Mat 1) 1 ∧
      (finalize (1 : Mat 1) 1).trace
        < (orOp (finalize (1 : Mat 1) 1) (finalize (1 : Mat 1) 1)).trace := by
  refine ⟨symmPSD_one, ?_, ?_⟩
  · rw [orOp_one_one, finalize_one_one]
    intro hcontra
    have h := congrFun (congrFun hcontra 0) 0
    simp only [Matrix.smul_apply, Matrix.one_apply_eq, smul_eq_mul] at h
    norm_num at h
  · rw [orOp_one_one, finalize_one_one, Matrix.trace_smul, Matrix.trace_smul,
      Matrix.trace_one]
    simp only [smul_eq_mul, Fintype.card_fin]
    norm_num

/-- C5 amended: the disjunction combinator used by `aggregate_update` is
commutative and monotonic (aggregating a further conceptor never decreases
`trace(A)`), and aggregating the same conceptor twice likewise never
decreases the occupied volume — but it is not idempotent: a repeated
identical pattern can strictly increase the occupied memory volume. -/
theorem C5_or_commutative_monotone {n : ℕ} (X Y R1 R2 : Mat n) (a1 a2 : ℚ)
    (h1 : symmPSD R1) (h2 : symmPSD R2) (ha1 : 0 < a1) (ha2 : 0 < a2) :
    orOp X Y = orOp Y X ∧
      (finalize R1 a1).trace
        ≤ (orOp (finalize R1 a1) (finalize R2 a2)).trace ∧
      (finalize R1 a1).trace
        ≤ (orOp (finalize R1 a1) (finalize R1 a1)).trace := by
  have hs1 : symmPSD (a1 ^ 2 • R1) := symmPSD_smul h1 (sq_nonneg a1)
  have hs2 : symmPSD (a2 ^ 2 • R2) := symmPSD_smul h2 (sq_nonneg a2)
  refine ⟨?_, ?_, ?_⟩
  · rw [orOp, orOp, add_comm (rOf X)]
  · rw [finalize_smul h1 ha1, finalize_smul h2 ha2,
      orOp_finalize_one hs1 hs2]
    exact trace_finalize_one_mono hs1 hs2
  · rw [finalize_smul h1 ha1, orOp_finalize_one hs1 hs1]
    exact trace_finalize_one_mono hs1 hs1

theorem C5_or_commutative_monotone_witness :
    symmPSD (0 : Mat 1) ∧
      (finalize (0 : Mat 1) 1).trace
        ≤ (orOp (finalize (0 : Mat 1) 1) (finalize (0 : Mat 1) 1)).trace :=
  ⟨symmPSD_zero,
    (C5_or_commutative_monotone 0 0 0 0 1 1 symmPSD_zero symmPSD_zero
      one_pos one_pos).2.2⟩

/-- C7: every finalized conceptor satisfies the defining formula
`C = R·(R + aperture⁻²·I)⁻¹` and is a symmetric soft projector with
eigenvalues in `[0,1)` (quadratic form nonnegative and strictly below the
squared norm); the bound is preserved by `set_aperture` and by the aggregate
`A` after every `aggregate_update`. -/
theorem C7_projector_eigenvalue_bounds {n : ℕ} (R : Mat n) (a phi : ℚ)
    (ps : History n) (hR : symmPSD R) (ha : 0 < a) (hphi : 0 < phi)
    (hps : ∀ p ∈ ps, goodPat p) :
    finalize R a = R * minv (R + (a⁻¹) ^ 2 • 1) ∧
      validConceptor (finalize R a) ∧
      validConceptor (set_aperture (finalize R a) a phi) ∧
      validConceptor (Aof ps) := by
  refine ⟨rfl, validConceptor_finalize hR ha, ?_, ?_⟩
  · rw [set_aperture_finalize hR ha hphi]
    exact validConceptor_finalize hR hphi
  · rw [Aof_eq hps]
    exact validConceptor_finalize (psum_psd hps) one_pos

theorem C7_projector_eigenvalue_bounds_witness :
    symmPSD (0 : Mat 1) ∧ validConceptor (finalize (0 : Mat 1) 1) :=
  ⟨symmPSD_zero,
    (C7_projector_eigenvalue_bounds 0 1 2 [] symmPSD_zero one_pos
      (by norm_num) (fun p hp => absurd hp (List.not_mem_nil p))).2.1⟩

/-- Modelled from the spec: the empirical correlation matrix of a collected
state trajectory (§3, §4.1) — the Gram matrix of the states (rows = time
steps) normalized by the sample count. -/
def gram {T : ℕ} (X : Matrix (Fin T) (Fin n) ℚ) : Mat n :=
  (T : ℚ)⁻¹ • (Xᵀ * X)

theorem gram_psd {T : ℕ} (X : Matrix (Fin T) (Fin n) ℚ) :
    symmPSD (gram X) := by
  refine symmPSD_smul ⟨?_, ?_⟩ (by positivity)
  · rw [Matrix.transpose_mul, Matrix.transpose_transpose]
  · intro x
    have h : qf (Xᵀ * X) x = (X *ᵥ x) ⬝ᵥ (X *ᵥ x) := by
      rw [qf, ← Matrix.mulVec_mulVec, Matrix.dotProduct_mulVec,
        ← Matrix.vecMul_transpose]
    rw [h]
    exact dotProduct_self_nonneg _

/-- Errors surfaced by the orchestrator (§4.5, §7). -/
inductive LoadError where
  | DuplicateId
  deriving DecidableEq

/-- Modelled from the spec: the session state of the incremental conceptor
network (IncConceptorNet, §2, §4.5, §9): base reservoir matrix `Wstar`,
input matrix `Win`, accumulated loading correction `D`, current reservoir
matrix `W = Wstar + D`, readout `Wout` with its running sufficient
statistics `sTs`/`sTy`, the set of loaded pattern ids, and the
`ConceptorSet` aggregate `A`. -/
structure IncNet (n : ℕ) where
  Wstar : Mat n
  Win : Matrix (Fin n) (Fin 1) ℚ
  D : Mat n
  W : Mat n
  Wout : Matrix (Fin 1) (Fin n) ℚ
  sTs : Mat n
  sTy : Matrix (Fin n) (Fin 1) ℚ
  loadedIds : List ℕ
  A : Mat n

/-- Modelled from the spec: one pattern's loading step (§4.3 input
simulation, §4.4 readout update), with states as rows (time × reservoir).
The previous-step states `Sold` are projected through `I − A` (the
pre-update aggregate) before the normal equations are formed; the target is
`Td = Win·u − W·Sold`; the correction solves the ridge system
`(sTs + ridge·I)·D_inc = sTd` and accumulates `D ← D + D_inc`,
`W ← Wstar + D`; the readout filters the states by `I − A`, accumulates the
running statistics, and re-solves `(sTs + ridge·I)·Woutᵀ = sTy` from the
cumulative statistics.  It does not touch the aggregate `A`. -/
def loading_step {n T : ℕ} (net : IncNet n) (X Xold : Matrix (Fin T) (Fin n) ℚ)
    (u : Matrix (Fin T) (Fin 1) ℚ) (ridge ridge_wout : ℚ) : IncNet n :=
  { net with
    D := net.D + minv ((Xold * (1 - net.A))ᵀ * (Xold * (1 - net.A))
          + ridge • 1) * ((Xold * (1 - net.A))ᵀ * (u * net.Winᵀ - Xold * net.Wᵀ)),
    W := net.Wstar + (net.D
          + minv ((Xold * (1 - net.A))ᵀ * (Xold * (1 - net.A)) + ridge • 1)
            * ((Xold * (1 - net.A))ᵀ * (u * net.Winᵀ - Xold * net.Wᵀ))),
    sTs := net.sTs + (X * (1 - net.A))ᵀ * (X * (1 - net.A)),
    sTy := net.sTy + (X * (1 - net.A))ᵀ * u,
    Wout := (minv ((net.sTs + (X * (1 - net.A))ᵀ * (X * (1 - net.A)))
          + ridge_wout • 1)
          * (net.sTy + (X * (1 - net.A))ᵀ * u))ᵀ }

/-- Modelled from the spec: `ConceptorSet.aggregate_update` at the
orchestrator level (§4.2, §4.5) — after a pattern's loading step completes,
its conceptor (finalized from the collected states at the session aperture)
is disjoined into the aggregate and the pattern id is recorded as loaded. -/
def aggregate_update {n T : ℕ} (net : IncNet n) (pid : ℕ)
    (X : Matrix (Fin T) (Fin n) ℚ) (aperture : ℚ) : IncNet n :=
  { net with
    A := orOp net.A (finalize (gram X) aperture),
    loadedIds := net.loadedIds ++ [pid] }

/-- Modelled from the spec: `load_pattern` (§4.5) — fails with `DuplicateId`
when the pattern id was already loaded (no state is produced); otherwise
performs the loading step against the pre-update aggregate and only then the
aggregate update. -/
def load_pattern {n T : ℕ} (net : IncNet n) (pid : ℕ)
    (X Xold : Matrix (Fin T) (Fin n) ℚ) (u : Matrix (Fin T) (Fin 1) ℚ)
    (ridge ridge_wout aperture : ℚ) : Except LoadError (IncNet n) :=
  if pid ∈ net.loadedIds then Except.error LoadError.DuplicateId
  else Except.ok
    (aggregate_update (loading_step net X Xold u ridge ridge_wout) pid X
      aperture)

/-- Modelled from the spec: the caller-visible session state after a
`load_pattern` call — on failure the shared state stays at its
last-committed value (§5 atomic-commit requirement). -/
def load_pattern_commit {n T : ℕ} (net : IncNet n) (pid : ℕ)
    (X Xold : Matrix (Fin T) (Fin n) ℚ) (u : Matrix (Fin T) (Fin 1) ℚ)
    (ridge ridge_wout aperture : ℚ) : IncNet n :=
  match load_pattern net pid X Xold u ridge ridge_wout aperture with
  | Except.ok m => m
  | Except.error _ => net

/-- C6: calling `load_pattern` with an already-loaded pattern id fails with
`DuplicateId` (it never silently overwrites), and the session state visible
after the failed call — in particular `W`, `Wout`, and the aggregate `A` —
is exactly (bit-for-bit) the state from before the call. -/
theorem C6_duplicate_id_rejected {n T : ℕ} (net : IncNet n) (pid : ℕ)
    (X Xold : Matrix (Fin T) (Fin n) ℚ) (u : Matrix (Fin T) (Fin 1) ℚ)
    (ridge ridge_wout aperture : ℚ) (hdup : pid ∈ net.loadedIds) :
    load_pattern net pid X Xold u ridge ridge_wout aperture
        = Except.error LoadError.DuplicateId ∧
      (load_pattern_commit net pid X Xold u ridge ridge_wout aperture).W
        = net.W ∧
      (load_pattern_commit net pid X Xold u ridge ridge_wout aperture).Wout
        = net.Wout ∧
      (load_pattern_commit net pid X Xold u ridge ridge_wout aperture).A
        = net.A := by
  have herr : load_pattern net pid X Xold u ridge ridge_wout aperture
      = Except.error LoadError.DuplicateId := by
    rw [load_pattern, if_pos hdup]
  refine ⟨herr, ?_, ?_, ?_⟩ <;> rw [load_pattern_commit, herr]

theorem C6_duplicate_id_rejected_witness :
    (0 : ℕ) ∈ [0] ∧
      load_pattern
          (IncNet.mk (n := 1) 0 0 0 0 0 0 0 [0] 0) 0 (0 : Mat 1) 0 0 1 1 1
        = Except.error LoadError.DuplicateId :=
  ⟨List.mem_singleton.mpr rfl,
    (C6_duplicate_id_rejected (IncNet.mk 0 0 0 0 0 0 0 [0] 0) 0 0 0 0 1 1 1
      (List.mem_singleton.mpr rfl)).1⟩

/-- C9: within a non-duplicate pattern load, the reservoir and readout
loading computations reference only the pre-update aggregate `net.A` (the
loading step leaves `A` untouched), and `aggregate_update` runs strictly
after that loading step: the result is exactly the aggregate update applied
to the loading step's output, whose new aggregate disjoins the pattern's
conceptor into the pre-update `A`. -/
theorem C9_loading_uses_preupdate_aggregate {n T : ℕ} (net : IncNet n)
    (pid : ℕ) (X Xold : Matrix (Fin T) (Fin n) ℚ)
    (u : Matrix (Fin T) (Fin 1) ℚ) (ridge ridge_wout aperture : ℚ)
    (hnew : pid ∉ net.loadedIds) :
    load_pattern net pid X Xold u ridge ridge_wout aperture
        = Except.ok
          (aggregate_update (loading_step net X Xold u ridge ridge_wout) pid
            X aperture) ∧
      (loading_step net X Xold u ridge ridge_wout).A = net.A ∧
      (loading_step net X Xold u ridge ridge_wout).sTs
        = net.sTs + (X * (1 - net.A))ᵀ * (X * (1 - net.A)) ∧
      (loading_step net X Xold u ridge ridge_wout).D
        = net.D + minv ((Xold * (1 - net.A))ᵀ * (Xold * (1 - net.A))
            + ridge • 1)
            * ((Xold * (1 - net.A))ᵀ * (u * net.Winᵀ - Xold * net.Wᵀ)) ∧
      (aggregate_update (loading_step net X Xold u ridge ridge_wout) pid X
          aperture).A
        = orOp net.A (finalize (gram X) aperture) := by
  exact ⟨by rw [load_pattern, if_neg hnew], rfl, rfl, rfl, rfl⟩

theorem C9_loading_uses_preupdate_aggregate_witness :
    (0 : ℕ) ∉ ([] : List ℕ) ∧
      (loading_step (IncNet.mk (n := 1) 0 0 0 0 0 0 0 [] 0) (0 : Mat 1) 0 0
          1 1).A
        = (IncNet.mk (n := 1) 0 0 0 0 0 0 0 [] 0).A :=
  ⟨List.not_mem_nil 0,
    (C9_loading_uses_preupdate_aggregate (IncNet.mk 0 0 0 0 0 0 0 [] 0) 0
      (0 : Mat 1) 0 0 1 1 1 (List.not_mem_nil 0)).2.1⟩

/-- Modelled from the spec: one pattern's data as seen by the incremental
readout learner (§4.4) — collected states (rows = time) and target outputs. -/
structure RPat (n T : ℕ) where
  X : Matrix (Fin T) (Fin n) ℚ
  y : Matrix (Fin T) (Fin 1) ℚ

/-- Modelled from the spec: the `IncrementalReadoutLearner` state (§4.4) —
running accumulated sufficient statistics `sTs`, `sTy` and the conceptor-set
aggregate `A` used to filter each new pattern's states. -/
structure IncRR (n : ℕ) where
  sTs : Mat n
  sTy : Matrix (Fin n) (Fin 1) ℚ
  A : Mat n

/-- Modelled from the spec: one readout-learning step (§4.4, §4.2): filter
the states by `I − A` (the pre-update aggregate), add this pattern's own
contribution to the running `sTs`/`sTy`, then advance the aggregate by
disjoining the pattern's conceptor (finalized at aperture `a`). -/
def rr_step {n T : ℕ} (a : ℚ) (st : IncRR n) (p : RPat n T) : IncRR n :=
  { sTs := st.sTs + (p.X * (1 - st.A))ᵀ * (p.X * (1 - st.A)),
    sTy := st.sTy + (p.X * (1 - st.A))ᵀ * p.y,
    A := orOp st.A (finalize (gram p.X) a) }

/-- Modelled from the spec: loading a sequence of patterns through the
incremental readout learner, in order. -/
def rr_run {n T : ℕ} (a : ℚ) (st : IncRR n) (ps : List (RPat n T)) :
    IncRR n :=
  ps.foldl (rr_step a) st

/-- The per-pattern `(sTs, sTy)` contributions along a run, each computed
against the aggregate in force when its pattern is loaded. -/
def rr_contribs {n T : ℕ} (a : ℚ) (A : Mat n) :
    List (RPat n T) → List (Mat n × Matrix (Fin n) (Fin 1) ℚ)
  | [] => []
  | p :: ps =>
    ((p.X * (1 - A))ᵀ * (p.X * (1 - A)), (p.X * (1 - A))ᵀ * p.y)
      :: rr_contribs a (orOp A (finalize (gram p.X) a)) ps

theorem rr_step_sTs {n T : ℕ} (a : ℚ) (st : IncRR n) (p : RPat n T) :
    (rr_step a st p).sTs
      = st.sTs + (p.X * (1 - st.A))ᵀ * (p.X * (1 - st.A)) := rfl

theorem rr_step_sTy {n T : ℕ} (a : ℚ) (st : IncRR n) (p : RPat n T) :
    (rr_step a st p).sTy = st.sTy + (p.X * (1 - st.A))ᵀ * p.y := rfl

theorem rr_step_A {n T : ℕ} (a : ℚ) (st : IncRR n) (p : RPat n T) :
    (rr_step a st p).A = orOp st.A (finalize (gram p.X) a) := rfl

theorem rr_run_nil {n T : ℕ} (a : ℚ) (st : IncRR n) :
    rr_run (T := T) a st [] = st := rfl

theorem rr_run_cons {n T : ℕ} (a : ℚ) (st : IncRR n) (p : RPat n T)
    (ps : List (RPat n T)) :
    rr_run a st (p :: ps) = rr_run a (rr_step a st p) ps := rfl

theorem rr_run_sTs_eq {n T : ℕ} (a : ℚ) (ps : List (RPat n T)) :
    ∀ st : IncRR n,
      (rr_run a st ps).sTs
        = st.sTs + ((rr_contribs a st.A ps).map Prod.fst).sum := by
  induction ps with
  | nil => intro st; simp [rr_run_nil, rr_contribs]
  | cons p ps ih =>
    intro st
    rw [rr_run_cons, ih (rr_step a st p), rr_step_sTs, rr_step_A]
    simp only [rr_contribs, List.map_cons, List.sum_cons]
    rw [add_assoc]

theorem rr_run_sTy_eq {n T : ℕ} (a : ℚ) (ps : List (RPat n T)) :
    ∀ st : IncRR n,
      (rr_run a st ps).sTy
        = st.sTy + ((rr_contribs a st.A ps).map Prod.snd).sum := by
  induction ps with
  | nil => intro st; simp [rr_run_nil, rr_contribs]
  | cons p ps ih =>
    intro st
    rw [rr_run_cons, ih (rr_step a st p), rr_step_sTy, rr_step_A]
    simp only [rr_contribs, List.map_cons, List.sum_cons]
    rw [add_assoc]

theorem rr_run_A_eq {n T : ℕ} {a : ℚ} (ha : 0 < a) (ps : List (RPat n T)) :
    ∀ (st : IncRR n) (S : Mat n), symmPSD S → st.A = finalize S 1 →
      (rr_run a st ps).A
        = finalize (S + psum (ps.map fun p => (gram p.X, a))) 1 := by
  induction ps with
  | nil => intro st S hS hA; simpa [rr_run_nil, psum_nil] using hA
  | cons p ps ih =>
    intro st S hS hA
    have hg : symmPSD (gram p.X) := gram_psd p.X
    have hgs : symmPSD (a ^ 2 • gram p.X) := symmPSD_smul hg (sq_nonneg a)
    have hstep : (rr_step a st p).A = finalize (S + a ^ 2 • gram p.X) 1 := by
      rw [rr_step_A, hA, finalize_smul hg ha, orOp_finalize_one hS hgs]
    rw [rr_run_cons, ih (rr_step a st p) (S + a ^ 2 • gram p.X)
      (symmPSD_add hS hgs) hstep, List.map_cons, psum_cons, add_assoc]

/-- C8 amended: the incremental readout learner's cumulative `sTs`/`sTy`
after loading a set of patterns equal the starting statistics plus the sum
of per-pattern contributions — each pattern adds only its own filtered
contribution, computed against the aggregate in force at its step (true
incrementality) — and the final aggregate `A` is identical for every
permutation of the load order; the cumulative `sTs`/`sTy` themselves are
not permutation-invariant, because the free-subspace filtering applied to
each pattern's states depends on which patterns were loaded before it. -/
theorem C8_incremental_stats_order {n T : ℕ} {a : ℚ} (st : IncRR n)
    (ps ps' : List (RPat n T)) (ha : 0 < a) (hA : st.A = 0)
    (hperm : List.Perm ps ps') :
    (rr_run a st ps).sTs
        = st.sTs + ((rr_contribs a st.A ps).map Prod.fst).sum ∧
      (rr_run a st ps).sTy
        = st.sTy + ((rr_contribs a st.A ps).map Prod.snd).sum ∧
      (rr_run a st ps).A = (rr_run a st ps').A := by
  have hA0 : st.A = finalize 0 1 := by rw [hA, finalize_zero_one]
  refine ⟨rr_run_sTs_eq a ps st, rr_run_sTy_eq a ps st, ?_⟩
  rw [rr_run_A_eq ha ps st 0 symmPSD_zero hA0,
    rr_run_A_eq ha ps' st 0 symmPSD_zero hA0]
  have hsum : psum (ps.map fun p => (gram p.X, a))
      = psum (ps'.map fun p => (gram p.X, a)) := by
    rw [psum, psum]
    exact ((hperm.map _).map _).sum_eq
  rw [hsum]

theorem C8_incremental_stats_order_witness :
    (0 : ℚ) < 1 ∧
      (rr_run 1 (IncRR.mk (0 : Mat 1) 0 0)
            [RPat.mk (T := 1) (1 : Mat 1) 0]).A
        = (rr_run 1 (IncRR.mk (0 : Mat 1) 0 0)
            [RPat.mk (T := 1) (1 : Mat 1) 0]).A :=
  ⟨one_pos,
    (C8_incremental_stats_order (IncRR.mk (0 : Mat 1) 0 0)
      [RPat.mk (T := 1) (1 : Mat 1) 0] [RPat.mk (T := 1) (1 : Mat 1) 0]
      one_pos rfl (List.Perm.refl _)).2.2⟩

theorem smul_one_add_one (c : ℚ) :
    c • (1 : Mat n) + 1 = (c + 1) • 1 := by
  rw [add_smul, one_smul]

theorem smul_one_add_smul_one (c d : ℚ) :
    c • (1 : Mat n) + d • 1 = (c + d) • 1 := by
  rw [add_smul]

theorem smul_one_transpose (c : ℚ) : (c • (1 : Mat n))ᵀ = c • 1 := by
  rw [transpose_smul, transpose_one]

theorem gram_smul_one (c : ℚ) :
    gram (T := 1) (c • (1 : Mat 1)) = (c * c) • 1 := by
  rw [gram, smul_one_transpose, smul_one_mul_smul_one]
  norm_num

theorem finalize_smul_one {c : ℚ} (h : c + 1 ≠ 0) :
    finalize (c • (1 : Mat n)) 1 = (c / (c + 1)) • 1 := by
  rw [finalize_one, smul_one_add_one, minv_smul_one h, smul_one_mul_smul_one,
    div_eq_mul_inv]

theorem rOf_smul_one {c : ℚ} (h : 1 - c ≠ 0) :
    rOf (c • (1 : Mat n)) = (c / (1 - c)) • 1 := by
  rw [rOf, one_sub_smul_one, minv_smul_one h, smul_one_mul_smul_one,
    div_eq_mul_inv]

theorem rOf_zero : rOf (0 : Mat n) = 0 := by
  rw [rOf, zero_mul]

theorem orOp_zero_smul_one {d : ℚ} (h1 : 1 - d ≠ 0)
    (h2 : d / (1 - d) + 1 ≠ 0) :
    orOp (0 : Mat n) (d • 1)
      = ((d / (1 - d)) / (d / (1 - d) + 1)) • 1 := by
  rw [orOp, rOf_zero, rOf_smul_one h1, zero_add, smul_one_add_one,
    minv_smul_one h2, smul_one_mul_smul_one, div_eq_mul_inv, div_eq_mul_inv]

/-- C8 counterexample: the cumulative `sTs` is not identical across load
orders.  On a 1-neuron reservoir with aperture 1, loading the pattern with
states `[1]` and then the pattern with states `[2]` accumulates `sTs = 2`,
while the reverse order accumulates `sTs = 101/25`, because the second
pattern's states are filtered through the aggregate left by the first. -/
theorem C8_sTs_order_counterexample :
    (rr_run 1 (IncRR.mk (0 : Mat 1) 0 0)
        [RPat.mk (T := 1) ((1 : ℚ) • 1) 0, RPat.mk ((2 : ℚ) • 1) 0]).sTs
      ≠ (rr_run 1 (IncRR.mk (0 : Mat 1) 0 0)
        [RPat.mk (T := 1) ((2 : ℚ) • 1) 0, RPat.mk ((1 : ℚ) • 1) 0]).sTs := by
  have hA1 : (rr_step 1 (IncRR.mk (0 : Mat 1) 0 0)
      (RPat.mk (T := 1) ((1 : ℚ) • 1) 0)).A = (2⁻¹ : ℚ) • 1 := by
    rw [rr_step_A]
    show orOp 0 (finalize (gram ((1 : ℚ) • 1)) 1) = _
    rw [gram_smul_one, finalize_smul_one (by norm_num),
      orOp_zero_smul_one (by norm_num) (by norm_num)]
    norm_num
  have hA2 : (rr_step 1 (IncRR.mk (0 : Mat 1) 0 0)
      (RPat.mk (T := 1) ((2 : ℚ) • 1) 0)).A = ((4 : ℚ) / 5) • 1 := by
    rw [rr_step_A]
    show orOp 0 (finalize (gram ((2 : ℚ) • 1)) 1) = _
    rw [gram_smul_one, finalize_smul_one (by norm_num),
      orOp_zero_smul_one (by norm_num) (by norm_num)]
    norm_num
  have hS1 : (rr_step 1 (IncRR.mk (0 : Mat 1) 0 0)
      (RPat.mk (T := 1) ((1 : ℚ) • 1) 0)).sTs = (1 : ℚ) • 1 := by
    rw [rr_step_sTs]
    show (0 : Mat 1) + (((1 : ℚ) • 1) * (1 - 0))ᵀ * (((1 : ℚ) • 1) * (1 - 0))
        = _
    rw [sub_zero, mul_one, smul_one_transpose, smul_one_mul_smul_one,
      zero_add]
    norm_num
  have hS2 : (rr_step 1 (IncRR.mk (0 : Mat 1) 0 0)
      (RPat.mk (T := 1) ((2 : ℚ) • 1) 0)).sTs = (4 : ℚ) • 1 := by
    rw [rr_step_sTs]
    show (0 : Mat 1) + (((2 : ℚ) • 1) * (1 - 0))ᵀ * (((2 : ℚ) • 1) * (1 - 0))
        = _
    rw [sub_zero, mul_one, smul_one_transpose, smul_one_mul_smul_one,
      zero_add]
    norm_num
  have hL : (rr_run 1 (IncRR.mk (0 : Mat 1) 0 0)
      [RPat.mk (T := 1) ((1 : ℚ) • 1) 0, RPat.mk ((2 : ℚ) • 1) 0]).sTs
      = (2 : ℚ) • 1 := by
    rw [rr_run_cons, rr_run_cons, rr_run_nil, rr_step_sTs, hS1, hA1,
      one_sub_smul_one, smul_one_mul_smul_one, smul_one_transpose,
      smul_one_mul_smul_one, smul_one_add_smul_one]
    norm_num
  have hR : (rr_run 1 (IncRR.mk (0 : Mat 1) 0 0)
      [RPat.mk (T := 1) ((2 : ℚ) • 1) 0, RPat.mk ((1 : ℚ) • 1) 0]).sTs
      = ((101 : ℚ) / 25) • 1 := by
    rw [rr_run_cons, rr_run_cons, rr_run_nil, rr_step_sTs, hS2, hA2,
      one_sub_smul_one, smul_one_mul_smul_one, smul_one_transpose,
      smul_one_mul_smul_one, smul_one_add_smul_one]
    norm_num
  rw [hL, hR]
  intro hcontra
  have h := congrFun (congrFun hcontra 0) 0
  simp only [Matrix.smul_apply, Matrix.one_apply_eq, smul_eq_mul] at h
  norm_num at h

/-- Parameter map of `NormalMatrixGenerator` restricted to the three keys its
`generate` method looks up (`self._parameters` in the Python source): the
outer `Option` is key presence in the map, and for `connectivity` the inner
`Option` is the Python value (which may be `None` for full connectivity). -/
structure NormalGenParams where
  connectivity : Option (Option ℚ)
  mean : Option ℚ
  std : Option ℚ

/-- Entry of a list-of-lists matrix (0 outside bounds). -/
def entry (w : List (List ℚ)) (i j : ℕ) : ℚ := (w.getD i []).getD j 0

namespace NormalMatrixGenerator

/-- Embedding of `NormalMatrixGenerator.generate`
(echotorch/utils/matrix_generation/NormalMatrixGenerator.py, lines 35-63).
The three parameters are looked up first, in source order, and a missing key
raises `Exception("Argument missing : {key}")` before any matrix is built.
The normal sampler is modelled by a stream of standard-normal draws
(`normal i j`), so `w.normal_(mean, std)` fills entry `(i,j)` with
`mean + std * normal i j`; the Bernoulli mask sampler is modelled by
`bern p i j`.  With `connectivity = None` the dense matrix is returned;
otherwise it is multiplied elementwise by the Bernoulli(`connectivity`)
mask. -/
def generate (params : NormalGenParams) (rows cols : ℕ)
    (normal : ℕ → ℕ → ℚ) (bern : ℚ → ℕ → ℕ → Bool) :
    Except String (List (List ℚ)) :=
  match params.connectivity with
  | none => Except.error "Argument missing : connectivity"
  | some connectivity =>
    match params.mean with
    | none => Except.error "Argument missing : mean"
    | some mean =>
      match params.std with
      | none => Except.error "Argument missing : std"
      | some std =>
        match connectivity with
        | none =>
          Except.ok ((List.range rows).map fun i =>
            (List.range cols).map fun j => mean + std * normal i j)
        | some p =>
          Except.ok ((List.range rows).map fun i =>
            (List.range cols).map fun j =>
              (mean + std * normal i j) * (if bern p i j then 1 else 0))

end NormalMatrixGenerator

theorem entry_map_range (f : ℕ → ℕ → ℚ) (rows cols i j : ℕ)
    (hi : i < rows) (hj : j < cols) :
    entry ((List.range rows).map fun i =>
      (List.range cols).map fun j => f i j) i j = f i j := by
  have h1 : ((List.range rows).map fun i =>
      (List.range cols).map fun j => f i j)[i]?
      = some ((List.range cols).map fun j => f i j) := by
    rw [List.getElem?_map, List.getElem?_range hi]
    rfl
  have h2 : ((List.range cols).map fun j => f i j)[j]? = some (f i j) := by
    rw [List.getElem?_map, List.getElem?_range hj]
    rfl
  rw [entry, List.getD_eq_getElem?_getD _ i ([] : List ℚ), h1,
    Option.getD_some, List.getD_eq_getElem?_getD _ j (0 : ℚ), h2,
    Option.getD_some]

/-- C10: `NormalMatrixGenerator.generate` fails with an exception naming the
missing key (checked in source order: connectivity, mean, std) whenever any
of the three parameters is absent, before building any matrix; when all
three are present it returns a matrix of exactly the requested size, whose
entries are the raw normal draws when `connectivity` is `None` and the draws
masked elementwise by the Bernoulli(`connectivity`) mask otherwise. -/
theorem C10_generate_contract (params : NormalGenParams) (rows cols : ℕ)
    (normal : ℕ → ℕ → ℚ) (bern : ℚ → ℕ → ℕ → Bool) :
    (params.connectivity = none →
      NormalMatrixGenerator.generate params rows cols normal bern
        = Except.error "Argument missing : connectivity") ∧
    (∀ c, params.connectivity = some c → params.mean = none →
      NormalMatrixGenerator.generate params rows cols normal bern
        = Except.error "Argument missing : mean") ∧
    (∀ c m, params.connectivity = some c → params.mean = some m →
      params.std = none →
      NormalMatrixGenerator.generate params rows cols normal bern
        = Except.error "Argument missing : std") ∧
    (∀ c mean std, params.connectivity = some c → params.mean = some mean →
      params.std = some std →
      ∃ w, NormalMatrixGenerator.generate params rows cols normal bern
          = Except.ok w ∧
        w.length = rows ∧ (∀ row ∈ w, row.length = cols) ∧
        (c = none → ∀ i j, i < rows → j < cols →
          entry w i j = mean + std * normal i j) ∧
        (∀ p, c = some p → ∀ i j, i < rows → j < cols →
          entry w i j
            = (mean + std * normal i j) * (if bern p i j then 1 else 0))) := by
  refine ⟨?_, ?_, ?_, ?_⟩
  · intro h
    rw [NormalMatrixGenerator.generate, h]
  · intro c hc hm
    rw [NormalMatrixGenerator.generate, hc, hm]
  · intro c m hc hm hs
    rw [NormalMatrixGenerator.generate, hc, hm, hs]
  · intro c mean std hc hm hs
    rcases c with _ | p
    · refine ⟨(List.range rows).map fun i =>
        (List.range cols).map fun j => mean + std * normal i j,
        ?_, ?_, ?_, ?_, ?_⟩
      · rw [NormalMatrixGenerator.generate, hc, hm, hs]
      · rw [List.length_map, List.length_range]
      · intro row hrow
        rcases List.mem_map.mp hrow with ⟨i, _, rfl⟩
        rw [List.length_map, List.length_range]
      · intro _ i j hi hj
        exact entry_map_range (fun i j => mean + std * normal i j)
          rows cols i j hi hj
      · intro p hp
        exact absurd hp (by simp)
    · refine ⟨(List.range rows).map fun i =>
        (List.range cols).map fun j =>
          (mean + std * normal i j) * (if bern p i j then 1 else 0),
        ?_, ?_, ?_, ?_, ?_⟩
      · rw [NormalMatrixGenerator.generate, hc, hm, hs]
      · rw [List.length_map, List.length_range]
      · intro row hrow
        rcases List.mem_map.mp hrow with ⟨i, _, rfl⟩
        rw [List.length_map, List.length_range]
      · intro hcontra
        exact absurd hcontra (by simp)
      · intro q hq i j hi hj
        have hpq : p = q := by
          injection hq
        subst hpq
        exact entry_map_range
          (fun i j => (mean + std * normal i j) * (if bern p i j then 1 else 0))
          rows cols i j hi hj

theorem C10_generate_contract_witness :
    (NormalGenParams.mk none (some 0) (some 1)).connectivity = none ∧
      NormalMatrixGenerator.generate (NormalGenParams.mk none (some 0) (some 1))
          2 3 (fun _ _ => 0) (fun _ _ _ => true)
        = Except.error "Argument missing : connectivity" ∧
      ∃ w, NormalMatrixGenerator.generate
            (NormalGenParams.mk (some none) (some 0) (some 1)) 2 3
            (fun _ _ => 0) (fun _ _ _ => true)
          = Except.ok w ∧ w.length = 2 ∧ (∀ row ∈ w, row.length = 3) :=
  ⟨rfl,
    (C10_generate_contract (NormalGenParams.mk none (some 0) (some 1)) 2 3
      (fun _ _ => 0) (fun _ _ _ => true)).1 rfl,
    let h := (C10_generate_contract
      (NormalGenParams.mk (some none) (some 0) (some 1)) 2 3
      (fun _ _ => 0) (fun _ _ _ => true)).2.2.2 none 0 1 rfl rfl rfl
    ⟨h.choose, h.choose_spec.1, h.choose_spec.2.1, h.choose_spec.2.2.1⟩⟩
